import Mathlib

/-!
Verification of the Vector Memory Subsystem of the fast-api-render repository.

The development shallowly embeds the Python modules that the claims concern:

* Te_Po/utils/offline_store.py : the local SQLite fallback store
  (fetch_records, cosine_similarity, top_k_embeddings, prune_embeddings).
* Te_Po/utils/openai_client.py : generate_embedding in offline mode
  (a SHA-256 digest of the text, bytes divided by 255).
* Te_Po/utils/supabase_client.py : the retry decorator.
* Te_Po/utils/pgvector_client.py : identifier validation for the remote store.
* Te_Po/routes/memory.py : the retrieve_memories gateway operation.

Python floats are modelled as real numbers, so the floating-point results
of the source become exact real results; retry delays are rationals.
The SQLite table is modelled as a list of records in insertion order with
strictly increasing created_at timestamps, so that the query
ORDER BY datetime(created_at) DESC returns the reverse of insertion order.
Fallible Python code (raise) is modelled with Except.
-/

namespace TePo

/-- Errors raised by the store layer: ValueError on a cosine dimension
mismatch, ValueError on an unsupported offline table, ValueError on a
rejected pgvector identifier. -/
inductive StoreError where
  | dimensionMismatch : StoreError
  | unsupportedTable : StoreError
  | invalidIdentifier : StoreError
deriving DecidableEq, Repr

/-- A row of the offline store, with the embedding already decoded from its
JSON text column: none models a value that json.loads does not return as a
sequence of floats (such rows are skipped by top_k_embeddings). -/
structure MemoryRecord where
  id : String
  content : String
  embedding : Option (List ℝ)

/-- The state of one offline table: its records in insertion order (the
head was inserted first).  created_at timestamps are strictly increasing
in insertion order, so ordering by created_at descending is reversal. -/
abbrev Store := List MemoryRecord

/-- Embedding of fetch_records (offline_store.py, lines 76 to 83): select
all rows ordered by created_at descending, and append a LIMIT clause only
when the Python limit argument is truthy, that is neither None nor 0. -/
def fetch_records (store : Store) (limit : Option ℕ) : List MemoryRecord :=
  let base := store.reverse
  match limit with
  | none => base
  | some n => if n = 0 then base else base.take n

/-- Embedding of cosine_similarity (offline_store.py, lines 103 to 114).
The guard `if not a or not b` returns 0.0 for an empty argument before the
length check; mismatched non-empty lengths raise ValueError; a zero norm
on either side gives 0.0; otherwise the dot product over the product of
the Euclidean norms. -/
noncomputable def cosine_similarity (a b : List ℝ) : Except StoreError ℝ :=
  if a = [] ∨ b = [] then Except.ok 0
  else if a.length ≠ b.length then Except.error StoreError.dimensionMismatch
  else
    let dot := (List.zipWith (· * ·) a b).sum
    let na := Real.sqrt ((a.map (fun x => x * x)).sum)
    let nb := Real.sqrt ((b.map (fun x => x * x)).sum)
    if na = 0 ∨ nb = 0 then Except.ok 0
    else Except.ok (dot / (na * nb))

/-- Embedding of the scoring loop of top_k_embeddings: walk the fetched
records, skip a record whose embedding column is not a sequence, compute
the cosine similarity against the query vector for the rest, and let a
ValueError from cosine_similarity propagate. -/
noncomputable def scoreRecords (q : List ℝ) :
    List MemoryRecord → Except StoreError (List (ℝ × MemoryRecord))
  | [] => Except.ok []
  | r :: rs =>
    match r.embedding with
    | none => scoreRecords q rs
    | some e =>
      match cosine_similarity q e, scoreRecords q rs with
      | Except.error err, _ => Except.error err
      | Except.ok _, Except.error err => Except.error err
      | Except.ok s, Except.ok rest => Except.ok ((s, r) :: rest)

/-- The comparison used to model scored.sort(key, reverse=True): a scored
record may precede another exactly when its score is at least as large.
A stable sort under this relation is descending by score and keeps the
original order of equal scores, which is what Python guarantees. -/
def rankRel (x y : ℝ × MemoryRecord) : Prop := y.1 ≤ x.1

noncomputable instance : DecidableRel rankRel :=
  fun x y => Real.decidableLE y.1 x.1

/-- Embedding of the sort of top_k_embeddings: a stable descending sort of
the scored records by score. -/
noncomputable def rankDesc (scored : List (ℝ × MemoryRecord)) :
    List (ℝ × MemoryRecord) :=
  List.insertionSort rankRel scored

/-- Embedding of top_k_embeddings (offline_store.py, lines 117 to 139):
fetch every record, score them, sort descending by score keeping ties in
fetched order, truncate to top_k and attach the similarity to each
record. -/
noncomputable def top_k_embeddings (store : Store) (q : List ℝ) (k : ℕ) :
    Except StoreError (List (MemoryRecord × ℝ)) :=
  match scoreRecords q (fetch_records store none) with
  | Except.error e => Except.error e
  | Except.ok scored =>
    Except.ok (((rankDesc scored).take k).map (fun p => (p.2, p.1)))

/-- Words are 32-bit: reduction modulo two to the thirty-two. -/
def w32 (x : ℕ) : ℕ := x % 4294967296

/-- Right rotation of a 32-bit word. -/
def rotr32 (n x : ℕ) : ℕ := w32 ((x >>> n) ||| (x <<< (32 - n)))

/-- The eight most significant bytes of a number, big endian: the bit
length field of SHA-256 padding. -/
def bigEndian8 (n : ℕ) : List ℕ :=
  [n / 72057594037927936 % 256, n / 281474976710656 % 256,
   n / 1099511627776 % 256, n / 4294967296 % 256,
   n / 16777216 % 256, n / 65536 % 256, n / 256 % 256, n % 256]

/-- SHA-256 padding: append the byte 0x80, then zeros until the length is
congruent to 56 modulo 64, then the bit length as eight big-endian
bytes. -/
def padMessage (msg : List ℕ) : List ℕ :=
  msg ++ [128] ++ List.replicate ((119 - msg.length % 64) % 64) 0
      ++ bigEndian8 (8 * msg.length)

/-- Groups of four big-endian bytes become 32-bit words. -/
def bytesToWords : List ℕ → List ℕ
  | a :: b :: c :: d :: rest =>
    (((a * 256 + b) * 256 + c) * 256 + d) :: bytesToWords rest
  | _ => []

/-- Extension of the 16-word message schedule by n further words. -/
def extendSchedule (w : List ℕ) : ℕ → List ℕ
  | 0 => w
  | n + 1 =>
    let i := w.length
    let x := w.getD (i - 15) 0
    let y := w.getD (i - 2) 0
    let s0 := rotr32 7 x ^^^ rotr32 18 x ^^^ (x >>> 3)
    let s1 := rotr32 17 y ^^^ rotr32 19 y ^^^ (y >>> 10)
    extendSchedule (w ++ [w32 (w.getD (i - 16) 0 + s0 + w.getD (i - 7) 0 + s1)]) n

/-- The eight 32-bit working registers of SHA-256. -/
structure Hash8 where
  a : ℕ
  b : ℕ
  c : ℕ
  d : ℕ
  e : ℕ
  f : ℕ
  g : ℕ
  h : ℕ

/-- One SHA-256 compression round with schedule word w and constant k. -/
def roundStep (w k : ℕ) (st : Hash8) : Hash8 :=
  let s1 := rotr32 6 st.e ^^^ rotr32 11 st.e ^^^ rotr32 25 st.e
  let ch := (st.e &&& st.f) ^^^ ((4294967295 - w32 st.e) &&& st.g)
  let t1 := w32 (st.h + s1 + ch + k + w)
  let s0 := rotr32 2 st.a ^^^ rotr32 13 st.a ^^^ rotr32 22 st.a
  let mj := (st.a &&& st.b) ^^^ (st.a &&& st.c) ^^^ (st.b &&& st.c)
  let t2 := w32 (s0 + mj)
  ⟨w32 (t1 + t2), st.a, st.b, st.c, w32 (st.d + t1), st.e, st.f, st.g⟩

/-- The 64 SHA-256 round constants. -/
def shaK : List ℕ :=
  [1116352408, 1899447441, 3049323471, 3921009573,
   961987163, 1508970993, 2453635748, 2870763221,
   3624381080, 310598401, 607225278, 1426881987,
   1925078388, 2162078206, 2614888103, 3248222580,
   3835390401, 4022224774, 264347078, 604807628,
   770255983, 1249150122, 1555081692, 1996064986,
   2554220882, 2821834349, 2952996808, 3210313671,
   3336571891, 3584528711, 113926993, 338241895,
   666307205, 773529912, 1294757372, 1396182291,
   1695183700, 1986661051, 2177026350, 2456956037,
   2730485921, 2820302411, 3259730800, 3345764771,
   3516065817, 3600352804, 4094571909, 275423344,
   430227734, 506948616, 659060556, 883997877,
   958139571, 1322822218, 1537002063, 1747873779,
   1955562222, 2024104815, 2227730452, 2361852424,
   2428436474, 2756734187, 3204031479, 3329325298]

/-- One 64-byte chunk updates the hash state. -/
def processChunk (st : Hash8) (chunk : List ℕ) : Hash8 :=
  let ws := extendSchedule (bytesToWords chunk) 48
  let r := (List.zip ws shaK).foldl (fun s wk => roundStep wk.1 wk.2 s) st
  ⟨w32 (st.a + r.a), w32 (st.b + r.b), w32 (st.c + r.c), w32 (st.d + r.d),
   w32 (st.e + r.e), w32 (st.f + r.f), w32 (st.g + r.g), w32 (st.h + r.h)⟩

/-- Split a byte list into 64-byte chunks. -/
def chunks64 (l : List ℕ) : List (List ℕ) :=
  if h : l = [] then []
  else l.take 64 :: chunks64 (l.drop 64)
termination_by l.length
decreasing_by
  simp only [List.length_drop]
  have : 0 < l.length := List.length_pos.mpr h
  omega

/-- A 32-bit word as four big-endian bytes. -/
def wordBytes (x : ℕ) : List ℕ :=
  [x / 16777216 % 256, x / 65536 % 256, x / 256 % 256, x % 256]

/-- The SHA-256 digest of a byte string, as 32 bytes. -/
def sha256 (msg : List ℕ) : List ℕ :=
  let st := (chunks64 (padMessage msg)).foldl processChunk
    ⟨1779033703, 3144134277, 1013904242, 2773480762,
     1359893119, 2600822924, 528734635, 1541459225⟩
  wordBytes st.a ++ wordBytes st.b ++ wordBytes st.c ++ wordBytes st.d ++
  wordBytes st.e ++ wordBytes st.f ++ wordBytes st.g ++ wordBytes st.h

/-- The UTF-8 bytes of a text. -/
def strBytes (s : String) : List ℕ := s.toUTF8.toList.map (fun b => b.toNat)

/-- Embedding of generate_embedding (openai_client.py, lines 51 to 62) in
offline mode: the SHA-256 digest of the UTF-8 text, truncated to 32
bytes, each divided by 255.0. -/
noncomputable def generate_embedding (textBytes : List ℕ) : List ℝ :=
  ((sha256 textBytes).take 32).map (fun (byte : ℕ) => (byte : ℝ) / 255)

/-- Embedding of prune_embeddings (offline_store.py, lines 142 to 151):
fetch all records newest first; when more than keep exist, delete by id
every record after the first keep of that listing. -/
def prune_embeddings (store : Store) (keep : ℕ) : Store :=
  let records := fetch_records store none
  if records.length ≤ keep then store
  else
    let toDelete := records.drop keep
    store.filter (fun r => decide (∀ d ∈ toDelete, d.id ≠ r.id))

/-- What a call of a Python function wrapped by the retry decorator can
end in: a returned value, a raised exception, or the implicit None that
the decorator returns when the loop body never runs. -/
inductive RetryOutcome (ε α : Type) where
  | ok : α → RetryOutcome ε α
  | raised : ε → RetryOutcome ε α
  | noneReturn : RetryOutcome ε α
deriving DecidableEq, Repr

/-- Embedding of the loop body of the retry decorator
(supabase_client.py, lines 42 to 74).  The operation is a function from
the zero-based attempt number to its outcome at that attempt; remaining
counts the attempts still to run, last the most recent exception, and
sleeps accumulates the backoff delays in order. -/
def retryGo {ε α : Type} (fn : ℕ → Except ε α) (delay : ℚ) (times : ℕ) :
    ℕ → Option ε → List ℚ → RetryOutcome ε α × List ℚ
  | 0, last, sleeps =>
    (match last with
     | some e => RetryOutcome.raised e
     | none => RetryOutcome.noneReturn, sleeps)
  | r + 1, _, sleeps =>
    let attempt := times - (r + 1)
    match fn attempt with
    | Except.ok a => (RetryOutcome.ok a, sleeps)
    | Except.error e =>
      if attempt < times - 1 then
        retryGo fn delay times r (some e) (sleeps ++ [delay * 2 ^ attempt])
      else
        retryGo fn delay times r (some e) sleeps

/-- Embedding of the retry decorator applied to an operation: run up to
times attempts, sleeping delay times two to the attempt after each failed
attempt that is not the last, and finally re-raise the last exception. -/
def retryRun {ε α : Type} (fn : ℕ → Except ε α) (times : ℕ) (delay : ℚ) :
    RetryOutcome ε α × List ℚ :=
  retryGo fn delay times times none []

/-- Whitespace in the sense of the Python str.strip method, that is the
characters the str.isspace method accepts: the ASCII control whitespace
9 to 13 and the separators 28 to 31, the space 32, the next line 133,
the no-break space 160, the Ogham space mark 5760, the Unicode spaces
8192 to 8202, the line separator 8232, the paragraph separator 8233,
the narrow no-break space 8239, the medium mathematical space 8287 and
the ideographic space 12288. -/
def isPySpace (c : Char) : Bool :=
  decide ((9 ≤ c.toNat ∧ c.toNat ≤ 13) ∨ (28 ≤ c.toNat ∧ c.toNat ≤ 31) ∨
    c.toNat = 32 ∨ c.toNat = 133 ∨ c.toNat = 160 ∨ c.toNat = 5760 ∨
    (8192 ≤ c.toNat ∧ c.toNat ≤ 8202) ∨ c.toNat = 8232 ∨ c.toNat = 8233 ∨
    c.toNat = 8239 ∨ c.toNat = 8287 ∨ c.toNat = 12288)

/-- Strip of leading and trailing whitespace, as Python str.strip. -/
def pyStrip (cs : List Char) : List Char :=
  ((cs.dropWhile isPySpace).reverse.dropWhile isPySpace).reverse

/-- Split on the dot character, as the Python str.split method with a
separator: the empty string yields one empty part. -/
def splitOnDot : List Char → List (List Char)
  | [] => [[]]
  | c :: cs =>
    if c = '.' then [] :: splitOnDot cs
    else
      match splitOnDot cs with
      | [] => [[c]]
      | p :: ps => (c :: p) :: ps

/-- The allow-pattern for one identifier part (pgvector_client.py,
line 15): a letter or underscore followed by letters, digits and
underscores. -/
def tableNameOk (cs : List Char) : Bool :=
  match cs with
  | [] => false
  | c :: rest => (c.isAlpha || c = '_') && rest.all (fun d => d.isAlphanum || d = '_')

/-- Embedding of the identifier validation of the remote store
(pgvector_client.py, lines 18 to 25): split the name on dots, strip each
part, drop the parts that strip to nothing, and reject unless one or two
parts remain and each matches the allow-pattern. -/
def identifier_parts (name : List Char) : Except StoreError (List (List Char)) :=
  let parts := ((splitOnDot name).map pyStrip).filter (fun p => decide (p ≠ []))
  if parts.length = 0 ∨ 2 < parts.length then Except.error StoreError.invalidIdentifier
  else if parts.all tableNameOk then Except.ok parts
  else Except.error StoreError.invalidIdentifier

/-- The parameterized search query that the remote store would issue:
built only after the identifier was validated. -/
structure PGSearchQuery where
  parts : List (List Char)
  vec : List ℝ
  k : ℕ

/-- The parameterized insert query that the remote store would issue:
built only after the identifier was validated. -/
structure PGInsertQuery where
  parts : List (List Char)
  content : String
  vec : List ℝ

/-- Embedding of PGVectorClient.search_embeddings (pgvector_client.py,
lines 58 to 74) up to the query boundary: validate the identifier first
and only then build the ranking query. -/
def pg_search_embeddings (table : List Char) (v : List ℝ) (k : ℕ) :
    Except StoreError PGSearchQuery :=
  match identifier_parts table with
  | Except.error e => Except.error e
  | Except.ok parts => Except.ok ⟨parts, v, k⟩

/-- Embedding of PGVectorClient.insert_embedding (pgvector_client.py,
lines 37 to 56) up to the query boundary: validate the identifier first
and only then build the insert query. -/
def pg_insert_embedding (table : List Char) (content : String) (v : List ℝ) :
    Except StoreError PGInsertQuery :=
  match identifier_parts table with
  | Except.error e => Except.error e
  | Except.ok parts => Except.ok ⟨parts, content, v⟩

/-- Errors of the retrieve_memories route, by HTTP class: invalidInput is
the 400 for an all-whitespace query, badRequest the 400 into which a
ValueError from the store layer is converted. -/
inductive GatewayError where
  | invalidInput : GatewayError
  | badRequest : GatewayError
deriving DecidableEq, Repr

/-- Embedding of retrieve_memories (routes/memory.py, lines 47 to 92) on
the offline path: reject a query that strips to nothing, generate the
query embedding once, delegate to the local top-k search, and keep only
results whose similarity is not below min_similarity when that threshold
is given. -/
noncomputable def retrieve_memories (store : Store) (query : String) (k : ℕ)
    (minSim : Option ℝ) : Except GatewayError (List (MemoryRecord × ℝ)) :=
  if pyStrip query.data = [] then Except.error GatewayError.invalidInput
  else
    match top_k_embeddings store (generate_embedding (strBytes query)) k with
    | Except.error _ => Except.error GatewayError.badRequest
    | Except.ok results =>
      Except.ok (results.filter (fun p =>
        match minSim with
        | none => true
        | some m => decide (m ≤ p.2)))

/-! Digest shape lemmas: the byte serialization of the final hash state
fixes the length and the byte range of the digest, whatever the
compression rounds computed. -/

theorem wordBytes_length (x : ℕ) : (wordBytes x).length = 4 := rfl

theorem wordBytes_lt (x : ℕ) : ∀ b ∈ wordBytes x, b < 256 := by
  intro b hb
  simp only [wordBytes, List.mem_cons, List.not_mem_nil, or_false] at hb
  rcases hb with h | h | h | h <;> subst h <;>
    exact Nat.mod_lt _ (by norm_num)

theorem sha256_length (msg : List ℕ) : (sha256 msg).length = 32 := by
  simp [sha256, wordBytes]

theorem sha256_byte_lt (msg : List ℕ) : ∀ b ∈ sha256 msg, b < 256 := by
  intro b hb
  simp only [sha256, List.mem_append] at hb
  rcases hb with ((((((h | h) | h) | h) | h) | h) | h) | h <;>
    exact wordBytes_lt _ _ h

theorem generate_embedding_length (textBytes : List ℕ) :
    (generate_embedding textBytes).length = 32 := by
  simp [generate_embedding, sha256_length]

theorem generate_embedding_ne_nil (textBytes : List ℕ) :
    generate_embedding textBytes ≠ [] := by
  intro h
  have := generate_embedding_length textBytes
  rw [h] at this
  simp at this

/-- Claim C7: in offline mode, generate_embedding of any non-empty text
returns a vector of fixed length 32 whose entries all lie in the closed
interval from 0 to 1, and a second call with the same text returns an
identical vector. -/
theorem claim7_generate_embedding (textBytes : List ℕ) (htext : textBytes ≠ []) :
    (generate_embedding textBytes).length = 32 ∧
    (∀ x ∈ generate_embedding textBytes, 0 ≤ x ∧ x ≤ 1) ∧
    generate_embedding textBytes = generate_embedding textBytes := by
  refine ⟨generate_embedding_length textBytes, ?_, rfl⟩
  intro x hx
  rw [generate_embedding] at hx
  obtain ⟨byte, hmem, hEq⟩ := List.mem_map.mp hx
  have hlt : byte < 256 := sha256_byte_lt _ _ (List.take_subset _ _ hmem)
  subst hEq
  constructor
  · positivity
  · rw [div_le_one (by norm_num)]
    have : (byte : ℝ) ≤ 255 := by exact_mod_cast Nat.lt_succ_iff.mp hlt
    linarith

/-- Witness for claim C7 at the UTF-8 bytes of the one-letter text a. -/
theorem claim7_generate_embedding_witness :
    (generate_embedding [97]).length = 32 ∧
    (∀ x ∈ generate_embedding [97], 0 ≤ x ∧ x ≤ 1) ∧
    generate_embedding [97] = generate_embedding [97] :=
  claim7_generate_embedding [97] (by simp)

/-- Claim C4: the retry executor with three attempts and base delay one
half attempts the operation, sleeps the base delay times two to the
zero-based attempt number after each failure that leaves attempts
remaining, re-raises the last error unchanged after the final failed
attempt, and in particular an operation that fails twice then succeeds
returns the success value with exactly the two sleeps of one half and
one. -/
theorem claim4_retry {ε α : Type} (fn : ℕ → Except ε α) :
    (∀ a, fn 0 = Except.ok a →
      retryRun fn 3 (1/2) = (RetryOutcome.ok a, [])) ∧
    (∀ e0 a, fn 0 = Except.error e0 → fn 1 = Except.ok a →
      retryRun fn 3 (1/2) = (RetryOutcome.ok a, [1/2])) ∧
    (∀ e0 e1 a, fn 0 = Except.error e0 → fn 1 = Except.error e1 →
      fn 2 = Except.ok a →
      retryRun fn 3 (1/2) = (RetryOutcome.ok a, [1/2, 1])) ∧
    (∀ e0 e1 e2, fn 0 = Except.error e0 → fn 1 = Except.error e1 →
      fn 2 = Except.error e2 →
      retryRun fn 3 (1/2) = (RetryOutcome.raised e2, [1/2, 1])) := by
  refine ⟨?_, ?_, ?_, ?_⟩
  · intro a h0
    norm_num [retryRun, retryGo, h0]
  · intro e0 a h0 h1
    norm_num [retryRun, retryGo, h0, h1]
  · intro e0 e1 a h0 h1 h2
    norm_num [retryRun, retryGo, h0, h1, h2]
  · intro e0 e1 e2 h0 h1 h2
    norm_num [retryRun, retryGo, h0, h1, h2]

/-- A concrete wrapped operation that fails on its first two attempts and
succeeds on the third. -/
def retryExampleOp : ℕ → Except ℕ ℕ :=
  fun n => if n < 2 then Except.error n else Except.ok 42

/-- Witness for claim C4: the fail-twice-then-succeed operation returns
the success value 42 and sleeps exactly one half then one. -/
theorem claim4_retry_witness :
    retryRun retryExampleOp 3 (1/2) = (RetryOutcome.ok 42, [1/2, 1]) :=
  (claim4_retry retryExampleOp).2.2.1 0 1 42 rfl rfl rfl

/-! Lemmas about cosine_similarity. -/

theorem sumsq_nonneg (a : List ℝ) : 0 ≤ (a.map (fun x => x * x)).sum := by
  apply List.sum_nonneg
  intro x hx
  obtain ⟨y, _, hEq⟩ := List.mem_map.mp hx
  subst hEq
  exact mul_self_nonneg y

theorem zipWith_mul_self (a : List ℝ) :
    List.zipWith (· * ·) a a = a.map (fun x => x * x) := by
  induction a with
  | nil => rfl
  | cons x xs ih => simp [ih]

theorem cosine_eval (a b : List ℝ) (ha : a ≠ []) (hb : b ≠ [])
    (hlen : a.length = b.length) :
    cosine_similarity a b =
      if Real.sqrt ((a.map (fun x => x * x)).sum) = 0 ∨
          Real.sqrt ((b.map (fun x => x * x)).sum) = 0 then Except.ok 0
      else Except.ok ((List.zipWith (· * ·) a b).sum /
        (Real.sqrt ((a.map (fun x => x * x)).sum) *
         Real.sqrt ((b.map (fun x => x * x)).sum))) := by
  rw [cosine_similarity, if_neg (by simp [ha, hb]), if_neg (by simp [hlen])]

/-- Self-similarity is exactly one for a vector of non-zero magnitude. -/
theorem cosine_self_eq_one (a : List ℝ) (h : (a.map (fun x => x * x)).sum ≠ 0) :
    cosine_similarity a a = Except.ok 1 := by
  have ha : a ≠ [] := by
    rintro rfl
    simp at h
  have hnn := sumsq_nonneg a
  rw [cosine_eval a a ha ha rfl, if_neg, zipWith_mul_self,
    Real.mul_self_sqrt hnn, div_self h]
  rw [or_self, Real.sqrt_eq_zero hnn]
  exact h

/-- Claim C5: cosine similarity of a vector with itself is exactly 1 when
the vector has non-zero magnitude, and for equal-length vectors the
result is 0, not an error and not undefined, whenever either side has
zero magnitude. -/
theorem claim5_cosine (a b : List ℝ) :
    ((a.map (fun x => x * x)).sum ≠ 0 → cosine_similarity a a = Except.ok 1) ∧
    (a.length = b.length →
      ((a.map (fun x => x * x)).sum = 0 ∨ (b.map (fun x => x * x)).sum = 0) →
      cosine_similarity a b = Except.ok 0) := by
  constructor
  · exact cosine_self_eq_one a
  · intro hlen hzero
    by_cases ha : a = []
    · rw [cosine_similarity, if_pos (Or.inl ha)]
    · by_cases hb : b = []
      · rw [cosine_similarity, if_pos (Or.inr hb)]
      · rw [cosine_eval a b ha hb hlen, if_pos]
        rcases hzero with h | h
        · exact Or.inl (by rw [h, Real.sqrt_zero])
        · exact Or.inr (by rw [h, Real.sqrt_zero])

/-- Witness for claim C5: the vector with single entry 1 has similarity 1
with itself, and similarity 0 against the zero vector of length one. -/
theorem claim5_cosine_witness :
    cosine_similarity [(1 : ℝ)] [1] = Except.ok 1 ∧
    cosine_similarity [(1 : ℝ)] [0] = Except.ok 0 :=
  ⟨(claim5_cosine [1] [1]).1 (by norm_num),
   (claim5_cosine [1] [0]).2 (by norm_num) (by norm_num)⟩

/-- Counterexample to claim C6 as stated: the empty vector against a
vector of length one is a pair of differing lengths, yet
cosine_similarity returns the value 0 instead of signalling the
dimension mismatch, because the emptiness guard runs before the length
check. -/
theorem claim6_counterexample :
    cosine_similarity [] [(1 : ℝ)] = Except.ok 0 ∧
    ([] : List ℝ).length ≠ [(1 : ℝ)].length := by
  constructor
  · rw [cosine_similarity, if_pos (Or.inl rfl)]
  · simp

/-- Claim C6 as amended: for vectors of differing length that are both
non-empty, cosine_similarity raises the dimension mismatch error; when
either vector is empty the function instead returns 0. -/
theorem claim6_amended_mismatch (a b : List ℝ) (ha : a ≠ []) (hb : b ≠ [])
    (hlen : a.length ≠ b.length) :
    cosine_similarity a b = Except.error StoreError.dimensionMismatch := by
  rw [cosine_similarity, if_neg (by simp [ha, hb]), if_pos hlen]

/-- Witness for the amended claim C6 at a length-one and a length-two
vector. -/
theorem claim6_amended_mismatch_witness :
    cosine_similarity [(1 : ℝ)] [1, 0] = Except.error StoreError.dimensionMismatch :=
  claim6_amended_mismatch [1] [1, 0] (by simp) (by simp) (by simp)

/-- Claim C10: the local fetch treats a limit of 0 exactly like no limit,
returning every record of the table, while a positive limit n returns at
most n records. -/
theorem claim10_fetch_records (store : Store) :
    fetch_records store (some 0) = fetch_records store none ∧
    (fetch_records store (some 0)).Perm store ∧
    (∀ n : ℕ, 0 < n → (fetch_records store (some n)).length ≤ n) := by
  refine ⟨by simp [fetch_records], by simp [fetch_records, List.reverse_perm], ?_⟩
  intro n hn
  have h : fetch_records store (some n) = store.reverse.take n := by
    simp [fetch_records, Nat.pos_iff_ne_zero.mp hn]
  rw [h]
  exact List.length_take_le _ _

/-- Witness for claim C10 on a one-record store, with positive limit 1. -/
theorem claim10_fetch_records_witness :
    (fetch_records [⟨"r1", "kia ora", none⟩] (some 1)).length ≤ 1 :=
  (claim10_fetch_records [⟨"r1", "kia ora", none⟩]).2.2 1 (by decide)

/-- Deleting by id every record of the first block of a two-block table
with disjoint ids removes exactly the first block. -/
theorem filter_delete_block (t d : List MemoryRecord)
    (hdisj : ∀ x ∈ t.map MemoryRecord.id, x ∉ d.map MemoryRecord.id) :
    (t ++ d).filter (fun r => decide (∀ x ∈ t.reverse, x.id ≠ r.id)) = d := by
  rw [List.filter_append]
  have hA : t.filter (fun r => decide (∀ x ∈ t.reverse, x.id ≠ r.id)) = [] := by
    rw [List.filter_eq_nil_iff]
    intro r hr
    simp only [decide_eq_true_eq, not_forall]
    exact ⟨r, List.mem_reverse.mpr hr, fun hne => hne rfl⟩
  have hB : d.filter (fun r => decide (∀ x ∈ t.reverse, x.id ≠ r.id)) = d := by
    rw [List.filter_eq_self]
    intro r hr
    simp only [decide_eq_true_eq]
    intro x hx hEq
    have hx2 : x ∈ t := List.mem_reverse.mp hx
    have hxid : x.id ∈ t.map MemoryRecord.id := List.mem_map_of_mem _ hx2
    have hrid : r.id ∈ d.map MemoryRecord.id := List.mem_map_of_mem _ hr
    rw [hEq] at hxid
    exact hdisj _ hxid hrid
  rw [hA, hB, List.nil_append]

/-- Claim C8: pruning a table to keep records leaves exactly the minimum
of keep and the record count, and the survivors are precisely the keep
most recently inserted records, in insertion order. -/
theorem claim8_prune (store : Store) (keep : ℕ)
    (hids : (store.map MemoryRecord.id).Nodup) :
    (prune_embeddings store keep).length = min keep store.length ∧
    prune_embeddings store keep = store.drop (store.length - keep) := by
  by_cases hle : store.length ≤ keep
  · have h1 : prune_embeddings store keep = store := by
      simp [prune_embeddings, fetch_records, hle]
    rw [h1, Nat.sub_eq_zero_of_le hle, List.drop_zero]
    exact ⟨(min_eq_right hle).symm, rfl⟩
  · push_neg at hle
    suffices h : prune_embeddings store keep = store.drop (store.length - keep) by
      refine ⟨?_, h⟩
      rw [h, List.length_drop]
      omega
    have hcond : ¬ ((fetch_records store none).length ≤ keep) := by
      simp only [fetch_records, List.length_reverse]
      omega
    rw [prune_embeddings]
    simp only []
    rw [if_neg hcond]
    set m := store.length - keep with hm
    have htd : (fetch_records store none).drop keep = (store.take m).reverse := by
      simp only [fetch_records]
      rw [List.drop_reverse]
    rw [htd]
    have hsplit := List.take_append_drop m store
    have hdisj : ∀ x ∈ (store.take m).map MemoryRecord.id,
        x ∉ (store.drop m).map MemoryRecord.id := by
      have : ((store.take m).map MemoryRecord.id ++
          (store.drop m).map MemoryRecord.id).Nodup := by
        rw [← List.map_append, hsplit]
        exact hids
      exact (List.nodup_append.mp this).2.2
    have hmain := filter_delete_block (store.take m) (store.drop m) hdisj
    rw [hsplit] at hmain
    exact hmain

/-- Witness for claim C8 on a three-record store pruned to keep two. -/
theorem claim8_prune_witness :
    (prune_embeddings [⟨"r1", "a", none⟩, ⟨"r2", "b", none⟩, ⟨"r3", "c", none⟩] 2).length =
      min 2 3 ∧
    prune_embeddings [⟨"r1", "a", none⟩, ⟨"r2", "b", none⟩, ⟨"r3", "c", none⟩] 2 =
      [⟨"r1", "a", none⟩, ⟨"r2", "b", none⟩, ⟨"r3", "c", none⟩].drop 1 :=
  claim8_prune [⟨"r1", "a", none⟩, ⟨"r2", "b", none⟩, ⟨"r3", "c", none⟩] 2
    (by simp)

/-- The identifier segments the validation works on: split on dots, strip
whitespace, drop segments that strip to nothing. -/
def segmentsOf (name : List Char) : List (List Char) :=
  ((splitOnDot name).map pyStrip).filter (fun p => decide (p ≠ []))

/-- An identifier the remote store accepts: one or two surviving
segments, each a letter or underscore followed by letters, digits and
underscores. -/
def validIdentifierSpec (name : List Char) : Prop :=
  (1 ≤ (segmentsOf name).length ∧ (segmentsOf name).length ≤ 2) ∧
  ∀ p ∈ segmentsOf name, tableNameOk p = true

instance (name : List Char) : Decidable (validIdentifierSpec name) := by
  unfold validIdentifierSpec
  infer_instance

/-- Counterexample to claim C9 as stated: the identifier a..b contains
two dot characters, which the claim says must be rejected outright, yet
the remote search accepts it and builds its ranking query, because the
split drops the empty segment between the dots. -/
theorem claim9_counterexample :
    pg_search_embeddings ['a', '.', '.', 'b'] [] 5 =
      Except.ok ⟨[['a'], ['b']], [], 5⟩ ∧
    List.count '.' ['a', '.', '.', 'b'] = 2 := by
  constructor
  · rfl
  · rfl

/-- Claim C9 as amended: an identifier is rejected with the invalid
identifier error, by the validation and hence by both remote operations
before any query value is built, unless splitting it on dots and
stripping whitespace leaves one or two non-empty segments that each
match the allow-pattern of a letter or underscore followed by letters,
digits and underscores. -/
theorem claim9_amended_identifier (name : List Char)
    (hbad : ¬ validIdentifierSpec name) :
    identifier_parts name = Except.error StoreError.invalidIdentifier ∧
    (∀ (v : List ℝ) (k : ℕ),
      pg_search_embeddings name v k = Except.error StoreError.invalidIdentifier) ∧
    (∀ (content : String) (v : List ℝ),
      pg_insert_embedding name content v = Except.error StoreError.invalidIdentifier) := by
  have hmain : identifier_parts name = Except.error StoreError.invalidIdentifier := by
    rw [identifier_parts]
    have hseg : List.filter (fun p => decide (p ≠ [])) (List.map pyStrip (splitOnDot name)) =
        segmentsOf name := rfl
    rw [hseg]
    by_cases hlen : (segmentsOf name).length = 0 ∨ 2 < (segmentsOf name).length
    · rw [if_pos hlen]
    · rw [if_neg hlen]
      rw [if_neg]
      intro hall
      apply hbad
      push_neg at hlen
      refine ⟨⟨by omega, by omega⟩, ?_⟩
      exact fun p hp => List.all_eq_true.mp hall p hp
  refine ⟨hmain, fun v k => ?_, fun content v => ?_⟩
  · rw [pg_search_embeddings, hmain]
  · rw [pg_insert_embedding, hmain]

/-- Witness for the amended claim C9 at the identifier a-b, whose single
segment contains the disallowed dash character. -/
theorem claim9_amended_identifier_witness :
    identifier_parts ['a', '-', 'b'] = Except.error StoreError.invalidIdentifier ∧
    pg_search_embeddings ['a', '-', 'b'] [] 5 = Except.error StoreError.invalidIdentifier ∧
    pg_insert_embedding ['a', '-', 'b'] "x" [] = Except.error StoreError.invalidIdentifier :=
  ⟨(claim9_amended_identifier ['a', '-', 'b'] (by decide)).1,
   (claim9_amended_identifier ['a', '-', 'b'] (by decide)).2.1 [] 5,
   (claim9_amended_identifier ['a', '-', 'b'] (by decide)).2.2 "x" []⟩

/-! Properties of the stable descending ranking. -/

instance : IsTotal (ℝ × MemoryRecord) rankRel :=
  ⟨fun a b => le_total b.1 a.1⟩

instance : IsTrans (ℝ × MemoryRecord) rankRel :=
  ⟨fun _ _ _ hab hbc => le_trans hbc hab⟩

theorem rankDesc_perm (l : List (ℝ × MemoryRecord)) : (rankDesc l).Perm l :=
  List.perm_insertionSort rankRel l

theorem rankDesc_sorted (l : List (ℝ × MemoryRecord)) :
    List.Pairwise rankRel (rankDesc l) :=
  List.sorted_insertionSort rankRel l

/-- Filtering a cons by a decidable proposition, with the condition in
propositional form. -/
theorem filter_cons_prop {α : Type} (p : α → Prop) [DecidablePred p]
    (a : α) (l : List α) :
    (a :: l).filter (fun x => decide (p x)) =
      if p a then a :: l.filter (fun x => decide (p x))
      else l.filter (fun x => decide (p x)) := by
  rw [List.filter_cons]
  by_cases h : p a
  · rw [if_pos (decide_eq_true h), if_pos h]
  · rw [if_neg (by simp [h]), if_neg h]

theorem filter_orderedInsert (x : ℝ × MemoryRecord)
    (l : List (ℝ × MemoryRecord)) (s : ℝ) :
    (List.orderedInsert rankRel x l).filter (fun p => decide (p.1 = s)) =
      if x.1 = s then x :: l.filter (fun p => decide (p.1 = s))
      else l.filter (fun p => decide (p.1 = s)) := by
  induction l with
  | nil =>
    rw [List.orderedInsert, filter_cons_prop (fun p : ℝ × MemoryRecord => p.1 = s)]
  | cons b t ih =>
    rw [List.orderedInsert]
    by_cases hr : rankRel x b
    · rw [if_pos hr, filter_cons_prop (fun p : ℝ × MemoryRecord => p.1 = s)]
    · rw [if_neg hr]
      have hblt : x.1 < b.1 := lt_of_not_le hr
      rw [filter_cons_prop (fun p : ℝ × MemoryRecord => p.1 = s), ih,
        filter_cons_prop (fun p : ℝ × MemoryRecord => p.1 = s)]
      by_cases hx : x.1 = s
      · have hb : ¬ b.1 = s := by
          intro hbs
          rw [hx, ← hbs] at hblt
          exact lt_irrefl b.1 hblt
        rw [if_neg hb, if_pos hx, if_pos hx, if_neg hb]
      · rw [if_neg hx, if_neg hx]

/-- Stability of the ranking: among the records of any one fixed score,
the sort preserves the fetched order. -/
theorem rankDesc_stable (l : List (ℝ × MemoryRecord)) (s : ℝ) :
    (rankDesc l).filter (fun p => decide (p.1 = s)) =
      l.filter (fun p => decide (p.1 = s)) := by
  induction l with
  | nil => rfl
  | cons a t ih =>
    rw [rankDesc, List.insertionSort, filter_orderedInsert,
      show List.insertionSort rankRel t = rankDesc t from rfl, ih,
      filter_cons_prop (fun p : ℝ × MemoryRecord => p.1 = s)]

/-- In a list sorted descending by score, filtering by a lower similarity
bound commutes with truncation: no element below the bound can push an
element above the bound out of the first k places. -/
theorem take_filter_of_sorted (m : ℝ) :
    ∀ (l : List (ℝ × MemoryRecord)), List.Pairwise rankRel l → ∀ k : ℕ,
    (l.take k).filter (fun p => decide (m ≤ p.1)) =
      (l.filter (fun p => decide (m ≤ p.1))).take k := by
  intro l
  induction l with
  | nil =>
    intro _ k
    simp
  | cons a t ih =>
    intro hp k
    obtain ⟨hrel, hpt⟩ := List.pairwise_cons.mp hp
    match k with
    | 0 => simp
    | k + 1 =>
      rw [List.take_succ_cons, filter_cons_prop (fun p : ℝ × MemoryRecord => m ≤ p.1),
        filter_cons_prop (fun p : ℝ × MemoryRecord => m ≤ p.1)]
      by_cases hma : m ≤ a.1
      · rw [if_pos hma, if_pos hma, List.take_succ_cons, ih hpt k]
      · rw [if_neg hma, if_neg hma]
        have htnil : t.filter (fun p => decide (m ≤ p.1)) = [] := by
          rw [List.filter_eq_nil_iff]
          intro p hpt2
          simp only [decide_eq_true_eq]
          intro hmp
          exact hma (le_trans hmp (hrel p hpt2))
        have htknil : (t.take k).filter (fun p => decide (m ≤ p.1)) = [] := by
          rw [List.filter_eq_nil_iff]
          intro p hpt2
          simp only [decide_eq_true_eq]
          intro hmp
          exact hma (le_trans hmp (hrel p (List.take_subset _ _ hpt2)))
        rw [htknil, htnil, List.take_nil]

/-! Lemmas about the scoring pass. -/

theorem cosine_ok (q e : List ℝ) (hq : q ≠ [])
    (he : e = [] ∨ e.length = q.length) :
    ∃ v, cosine_similarity q e = Except.ok v := by
  by_cases he2 : e = []
  · refine ⟨0, ?_⟩
    rw [cosine_similarity, if_pos (Or.inr he2)]
  · rcases he with h | h
    · exact absurd h he2
    · rw [cosine_eval q e hq he2 h.symm]
      by_cases hz : Real.sqrt ((q.map (fun x => x * x)).sum) = 0 ∨
          Real.sqrt ((e.map (fun x => x * x)).sum) = 0
      · exact ⟨0, by rw [if_pos hz]⟩
      · exact ⟨_, by rw [if_neg hz]⟩

theorem scoreRecords_ok (q : List ℝ) (hq : q ≠ []) :
    ∀ (l : List MemoryRecord),
    (∀ r ∈ l, ∀ e, r.embedding = some e → e = [] ∨ e.length = q.length) →
    ∃ s, scoreRecords q l = Except.ok s := by
  intro l
  induction l with
  | nil => exact fun _ => ⟨[], rfl⟩
  | cons r rs ih =>
    intro hwf
    obtain ⟨rest, hrest⟩ := ih (fun x hx => hwf x (List.mem_cons_of_mem r hx))
    match hemb : r.embedding with
    | none =>
      refine ⟨rest, ?_⟩
      simp only [scoreRecords, hemb, hrest]
    | some e =>
      obtain ⟨v, hv⟩ := cosine_ok q e hq (hwf r (List.mem_cons_self r rs) e hemb)
      refine ⟨(v, r) :: rest, ?_⟩
      simp only [scoreRecords, hemb, hv, hrest]

/-- Claim C2 as amended: the local search fetches all records of the
collection, computes cosine similarity for each scorable record, sorts
descending by score and truncates to k; but when two records have equal
scores the sort keeps them in fetched order, which is newest first, so
the later-inserted record is placed ahead of (and is retained in
preference to) the earlier-inserted one. -/
theorem claim2_amended_topk (store : Store) (q : List ℝ) (k : ℕ)
    (hq : q ≠ [])
    (hwf : ∀ r ∈ store, ∀ e, r.embedding = some e → e = [] ∨ e.length = q.length) :
    ∃ scored,
      scoreRecords q (fetch_records store none) = Except.ok scored ∧
      top_k_embeddings store q k =
        Except.ok (((rankDesc scored).take k).map (fun p => (p.2, p.1))) ∧
      (rankDesc scored).Perm scored ∧
      List.Pairwise rankRel (rankDesc scored) ∧
      (∀ s : ℝ, (rankDesc scored).filter (fun p => decide (p.1 = s)) =
        scored.filter (fun p => decide (p.1 = s))) := by
  have hwf2 : ∀ r ∈ fetch_records store none, ∀ e,
      r.embedding = some e → e = [] ∨ e.length = q.length := by
    intro r hr e he
    exact hwf r (List.mem_reverse.mp hr) e he
  obtain ⟨scored, hscored⟩ := scoreRecords_ok q hq _ hwf2
  refine ⟨scored, hscored, ?_, rankDesc_perm scored, rankDesc_sorted scored,
    fun s => rankDesc_stable scored s⟩
  simp only [top_k_embeddings, hscored]

/-- The record inserted first in the tie-break counterexample. -/
def recEarlier : MemoryRecord := ⟨"earlier", "kia ora", some [1]⟩

/-- The record inserted second in the tie-break counterexample. -/
def recLater : MemoryRecord := ⟨"later", "kia ora", some [1]⟩

/-- A store holding the earlier record then the later record, both with
the same embedding so that any query scores them equally. -/
def tieStore : Store := [recEarlier, recLater]

/-- Witness for the amended claim C2 on the two-record tie store. -/
theorem claim2_amended_topk_witness :
    ∃ scored,
      scoreRecords [(1 : ℝ)] (fetch_records tieStore none) = Except.ok scored ∧
      top_k_embeddings tieStore [(1 : ℝ)] 1 =
        Except.ok (((rankDesc scored).take 1).map (fun p => (p.2, p.1))) ∧
      (rankDesc scored).Perm scored ∧
      List.Pairwise rankRel (rankDesc scored) ∧
      (∀ s : ℝ, (rankDesc scored).filter (fun p => decide (p.1 = s)) =
        scored.filter (fun p => decide (p.1 = s))) :=
  claim2_amended_topk tieStore [(1 : ℝ)] 1 (by simp)
    (by
      intro r hr e he
      simp only [tieStore, recEarlier, recLater, List.mem_cons,
        List.not_mem_nil, or_false] at hr
      rcases hr with rfl | rfl <;>
        · simp only [] at he
          injection he with h
          subst h
          right
          rfl)

/-- Counterexample to claim C2 as stated: with two records of equal score
the later-inserted record, not the earlier, heads the ranking and is the
one retained by truncation to one result. -/
theorem claim2_counterexample :
    top_k_embeddings tieStore [(1 : ℝ)] 1 = Except.ok [(recLater, 1)] ∧
    recEarlier.id ≠ recLater.id := by
  constructor
  · have hcos : cosine_similarity [(1 : ℝ)] [1] = Except.ok 1 :=
      cosine_self_eq_one [1] (by norm_num)
    have e1 : recLater.embedding = some [(1 : ℝ)] := rfl
    have e2 : recEarlier.embedding = some [(1 : ℝ)] := rfl
    have hfetch : fetch_records tieStore none = [recLater, recEarlier] := rfl
    have hs : scoreRecords [(1 : ℝ)] (fetch_records tieStore none) =
        Except.ok [(1, recLater), (1, recEarlier)] := by
      rw [hfetch]
      simp only [scoreRecords, e1, e2, hcos]
    have hrank : rankDesc [((1 : ℝ), recLater), (1, recEarlier)] =
        [((1 : ℝ), recLater), (1, recEarlier)] := by
      rw [rankDesc, List.insertionSort, List.insertionSort, List.insertionSort,
        List.orderedInsert, List.orderedInsert,
        if_pos (show rankRel ((1 : ℝ), recLater) ((1 : ℝ), recEarlier) from le_refl 1)]
    simp only [top_k_embeddings, hs, hrank]
    rfl
  · simp [recEarlier, recLater]

/-- Claim C1: for every well-formed store, non-blank query, bound k and
optional threshold in the unit interval, the gateway search returns a
list, never an error, of at most k results, and when the threshold is
given every returned similarity is at least the threshold; in particular
when nothing clears the threshold the list is empty. -/
theorem claim1_retrieve (store : Store) (query : String) (k : ℕ)
    (minSim : Option ℝ)
    (hq : pyStrip query.data ≠ [])
    (hwf : ∀ r ∈ store, ∀ e, r.embedding = some e → e = [] ∨ e.length = 32)
    (hm : ∀ m, minSim = some m → 0 ≤ m ∧ m ≤ 1) :
    ∃ l, retrieve_memories store query k minSim = Except.ok l ∧
      l.length ≤ k ∧
      (∀ p ∈ l, ∀ m, minSim = some m → m ≤ p.2) := by
  have hqne : generate_embedding (strBytes query) ≠ [] :=
    generate_embedding_ne_nil _
  have hwf2 : ∀ r ∈ fetch_records store none, ∀ e, r.embedding = some e →
      e = [] ∨ e.length = (generate_embedding (strBytes query)).length := by
    intro r hr e he
    rcases hwf r (List.mem_reverse.mp hr) e he with h | h
    · exact Or.inl h
    · right
      rw [h, generate_embedding_length]
  obtain ⟨scored, hscored⟩ :=
    scoreRecords_ok (generate_embedding (strBytes query)) hqne _ hwf2
  have htop : top_k_embeddings store (generate_embedding (strBytes query)) k =
      Except.ok (((rankDesc scored).take k).map (fun p => (p.2, p.1))) := by
    simp only [top_k_embeddings, hscored]
  have hret : retrieve_memories store query k minSim =
      Except.ok ((((rankDesc scored).take k).map (fun p => (p.2, p.1))).filter
        (fun p => match minSim with
          | none => true
          | some m => decide (m ≤ p.2))) := by
    rw [retrieve_memories, if_neg hq]
    simp only [htop]
  refine ⟨_, hret, ?_, ?_⟩
  · refine le_trans (List.length_filter_le _ _) ?_
    rw [List.length_map]
    exact List.length_take_le _ _
  · intro p hp m hmEq
    subst hmEq
    have hpred := List.of_mem_filter hp
    simpa using hpred

/-- Witness for claim C1 on the empty store with a non-blank query and
threshold one half. -/
theorem claim1_retrieve_witness :
    ∃ l, retrieve_memories [] "kia ora" 5 (some (1/2)) = Except.ok l ∧
      l.length ≤ 5 ∧
      (∀ p ∈ l, ∀ m : ℝ, some (1/2 : ℝ) = some m → m ≤ p.2) :=
  claim1_retrieve [] "kia ora" 5 (some (1/2)) (by decide) (by simp)
    (by
      intro m hm
      injection hm with h
      subst h
      constructor <;> norm_num)

/-- Claim C3: with the local store and a threshold, the gateway search
result is exactly the threshold filter applied to the full ranked record
list and then truncated to k, so a result below the threshold never
displaces an above-threshold record out of the returned top k. -/
theorem claim3_retrieve_threshold (store : Store) (query : String) (k : ℕ)
    (m : ℝ)
    (hq : pyStrip query.data ≠ [])
    (hwf : ∀ r ∈ store, ∀ e, r.embedding = some e → e = [] ∨ e.length = 32)
    (hm : 0 ≤ m ∧ m ≤ 1) :
    ∃ scored,
      scoreRecords (generate_embedding (strBytes query))
        (fetch_records store none) = Except.ok scored ∧
      retrieve_memories store query k (some m) =
        Except.ok ((((rankDesc scored).filter
          (fun p => decide (m ≤ p.1))).take k).map (fun p => (p.2, p.1))) := by
  have hqne : generate_embedding (strBytes query) ≠ [] :=
    generate_embedding_ne_nil _
  have hwf2 : ∀ r ∈ fetch_records store none, ∀ e, r.embedding = some e →
      e = [] ∨ e.length = (generate_embedding (strBytes query)).length := by
    intro r hr e he
    rcases hwf r (List.mem_reverse.mp hr) e he with h | h
    · exact Or.inl h
    · right
      rw [h, generate_embedding_length]
  obtain ⟨scored, hscored⟩ :=
    scoreRecords_ok (generate_embedding (strBytes query)) hqne _ hwf2
  have htop : top_k_embeddings store (generate_embedding (strBytes query)) k =
      Except.ok (((rankDesc scored).take k).map (fun p => (p.2, p.1))) := by
    simp only [top_k_embeddings, hscored]
  have hmapfilter : ∀ (L : List (ℝ × MemoryRecord)),
      (L.map (fun p => (p.2, p.1))).filter
        (fun p : MemoryRecord × ℝ => decide (m ≤ p.2)) =
      (L.filter (fun p => decide (m ≤ p.1))).map (fun p => (p.2, p.1)) := by
    intro L
    induction L with
    | nil => rfl
    | cons a t ih =>
      rw [List.map_cons, filter_cons_prop (fun p : MemoryRecord × ℝ => m ≤ p.2),
        filter_cons_prop (fun p : ℝ × MemoryRecord => m ≤ p.1)]
      by_cases hma : m ≤ a.1
      · rw [if_pos hma, if_pos hma, List.map_cons, ih]
      · rw [if_neg hma, if_neg hma, ih]
  have hret : retrieve_memories store query k (some m) =
      Except.ok ((((rankDesc scored).take k).map (fun p => (p.2, p.1))).filter
        (fun p : MemoryRecord × ℝ => decide (m ≤ p.2))) := by
    rw [retrieve_memories, if_neg hq]
    simp only [htop]
  refine ⟨scored, hscored, ?_⟩
  rw [hret, hmapfilter,
    take_filter_of_sorted m (rankDesc scored) (rankDesc_sorted scored) k]

/-- Witness for claim C3 on the empty store with threshold one half. -/
theorem claim3_retrieve_threshold_witness :
    ∃ scored,
      scoreRecords (generate_embedding (strBytes "kia ora"))
        (fetch_records [] none) = Except.ok scored ∧
      retrieve_memories [] "kia ora" 5 (some (1/2)) =
        Except.ok ((((rankDesc scored).filter
          (fun p => decide ((1/2 : ℝ) ≤ p.1))).take 5).map (fun p => (p.2, p.1))) :=
  claim3_retrieve_threshold [] "kia ora" 5 (1/2) (by decide) (by simp)
    ⟨by norm_num, by norm_num⟩

end TePo
